import Mathlib

/-!
Verification of the keyword-match reconciliation engine of the
AudioKeywordsEvaluator demo application.

Strings are modelled as `List Char` (JavaScript strings, with `toLowerCase`
modelled per-character by `Char.toLower`).  The state-changing React handlers
are modelled as pure functions from their inputs to the produced state:
`setKeywords`/`setMarkedTranscription`/`setError` calls become fields of an
explicit result value.  Remote services (`translateTextList`,
`analyzeKeywordsWithLLM` in `src/services/geminiService.ts`) are modelled by
their returned values, passed in as parameters: `translateTextList` never
throws and returns a mapping (empty on total failure), and
`analyzeKeywordsWithLLM` never throws and returns `null` on failure
(modelled as `Option LLMResult`, with `none` for `null`).
-/

/-- JavaScript `s.toLowerCase()`, modelled per character. -/
def lowerStr (s : List Char) : List Char := s.map Char.toLower

/-- Leading-whitespace removal, first half of JavaScript `trim()`. -/
def trimLeft (s : List Char) : List Char := s.dropWhile Char.isWhitespace

/-- Trailing-whitespace removal, second half of JavaScript `trim()`. -/
def trimRight (s : List Char) : List Char :=
  (s.reverse.dropWhile Char.isWhitespace).reverse

/-- JavaScript `s.trim()`. -/
def trim (s : List Char) : List Char := trimRight (trimLeft s)

/-- JavaScript `hay.includes(pat)`: substring containment test
(`String.prototype.includes`). -/
def hasSub (pat : List Char) : List Char → Bool
  | [] => pat.isEmpty
  | c :: rest => pat.isPrefixOf (c :: rest) || hasSub pat rest

/-- Keyword record (`Keyword` in `src/types.ts` as used by `src/App.tsx` and
`src/components/KeywordManager.tsx`).  The optional numeric fields are always
written as numbers by the app, so they are modelled as total `Int` fields;
`fuzzySegments` left `undefined` behaves as `[]` everywhere it is read
(`k.fuzzySegments || []`), so it is modelled as a plain list. -/
structure Keyword where
  id : Nat
  text : List Char
  detected : Bool
  matchCount : Int
  fuzzyCount : Int
  fuzzySegments : List (List Char)
  translatedText : Option (List Char)
deriving DecidableEq, Repr

/-- The per-keyword update object built by `handleProcessAudio`
(`updates[sk.id]` in `src/App.tsx`). -/
structure MatchUpdate where
  detected : Bool
  matchCount : Int
  fuzzyCount : Int
  fuzzySegments : List (List Char)
deriving DecidableEq, Repr

/-- Validation failures of `validateKeyword` in
`src/components/KeywordManager.tsx` (which alert `duplicateError` or
`maxCharError`). -/
inductive KwError where
  | duplicate
  | tooLong
deriving DecidableEq, Repr

/-- Outcome of `submitAddKeyword` in `src/components/KeywordManager.tsx`.
`cancelled` is the empty-input branch (closes the add box),
`capacityError` is the `keywords.length >= 100` alert,
`rejected` is a `validateKeyword` alert, and `added` carries the new list
passed to `setKeywords`. -/
inductive AddResult where
  | cancelled
  | capacityError
  | rejected (e : KwError)
  | added (newKeywords : List Keyword)
deriving DecidableEq, Repr

/-- Outcome of `saveEdit` in `src/components/KeywordManager.tsx`. -/
inductive EditResult where
  | cancelled
  | rejected (e : KwError)
  | saved (newKeywords : List Keyword)
deriving DecidableEq, Repr

/-- `getCharLimit` in `src/components/KeywordManager.tsx`:
`/^[\x00-\xff]*$/.test(str) ? 20 : 10`. -/
def getCharLimit (str : List Char) : Nat :=
  let isAscii := str.all fun c => c.toNat ≤ 0xff
  if isAscii then 20 else 10

/-- `validateKeyword` in `src/components/KeywordManager.tsx`.  Returns
`none` when valid (or when the trimmed text is empty, as in the source);
`currentId = none` models the `undefined` argument of the add path
(`k.id !== undefined` is always true). -/
def validateKeyword (keywords : List Keyword) (text : List Char)
    (currentId : Option Nat) : Option KwError :=
  let trimmed := trim text
  if trimmed.isEmpty then none
  else if keywords.any fun k =>
      lowerStr k.text == lowerStr trimmed && some k.id != currentId then
    some KwError.duplicate
  else if getCharLimit trimmed < trimmed.length then
    some KwError.tooLong
  else none

/-- `submitAddKeyword` in `src/components/KeywordManager.tsx`.  `freshId`
models `crypto.randomUUID()`.  The new record is prepended
(`[keyword, ...prev]`). -/
def submitAddKeyword (keywords : List Keyword) (newKeyword : List Char)
    (freshId : Nat) : AddResult :=
  let trimmed := trim newKeyword
  if trimmed.isEmpty then AddResult.cancelled
  else if 100 ≤ keywords.length then AddResult.capacityError
  else
    match validateKeyword keywords trimmed none with
    | some e => AddResult.rejected e
    | none =>
        AddResult.added
          ({ id := freshId, text := trimmed, detected := false,
             matchCount := 0, fuzzyCount := 0, fuzzySegments := [],
             translatedText := none } :: keywords)

/-- The keyword list after `submitAddKeyword`: `setKeywords` is only called
in the success branch, every other branch leaves the list untouched. -/
def keywordsAfterAdd (keywords : List Keyword) (newKeyword : List Char)
    (freshId : Nat) : List Keyword :=
  match submitAddKeyword keywords newKeyword freshId with
  | AddResult.added ks => ks
  | _ => keywords

/-- `removeKeyword` in `src/components/KeywordManager.tsx`:
`prev.filter(k => k.id !== id)`. -/
def removeKeyword (keywords : List Keyword) (id : Nat) : List Keyword :=
  keywords.filter fun k => !(k.id == id)

/-- `saveEdit` in `src/components/KeywordManager.tsx`.  Note that the
success branch writes
`{ ...k, text: trimmed, detected: false, matchCount: 0, fuzzyCount: 0 }`:
`fuzzySegments` (and `translatedText`) are NOT touched. -/
def saveEdit (keywords : List Keyword) (editingId : Nat)
    (editText : List Char) : EditResult :=
  let trimmed := trim editText
  if trimmed.isEmpty then EditResult.cancelled
  else
    match validateKeyword keywords trimmed (some editingId) with
    | some e => EditResult.rejected e
    | none =>
        EditResult.saved
          (keywords.map fun k =>
            if k.id == editingId then
              { k with text := trimmed, detected := false,
                       matchCount := 0, fuzzyCount := 0 }
            else k)

/-- `resetResults` in `src/App.tsx` (the same record update is used by
`handleClearAudio` and `handleAudioReady`). -/
def resetResults (keywords : List Keyword) : List Keyword :=
  keywords.map fun k =>
    { k with detected := false, matchCount := 0, fuzzyCount := 0,
             fuzzySegments := [], translatedText := none }

/-- One element of the `analysis` array returned by `analyzeKeywordsWithLLM`
(`src/services/geminiService.ts`).  `fuzzy_segments` may be absent in the
parsed JSON, hence `Option` (read as `r.fuzzy_segments || []`). -/
structure AnalysisEntry where
  object : List Char
  absolute_pair : Int
  blur_pair : Int
  fuzzy_segments : Option (List (List Char))
deriving DecidableEq, Repr

/-- The non-null result of `analyzeKeywordsWithLLM`.  A missing or empty
`analysis` array is modelled by `[]` (the source guards with
`analysisResults && analysisResults.length > 0`, and iterating an empty
list is the same no-op). -/
structure LLMResult where
  analysis : List AnalysisEntry
  marked_transcript : List Char
deriving DecidableEq, Repr

/-- The state written by one run of `handleProcessAudio` in `src/App.tsx`:
the new keyword list, the new `markedTranscription`, the `error` state and
the `hasAnalyzed` flag. -/
structure ProcessOut where
  keywords : List Keyword
  marked : Option (List Char)
  error : Option (List Char)
  hasAnalyzed : Bool
deriving DecidableEq, Repr

/-- `translatedMap[k.text] || k.text` in `src/App.tsx`: the translation map
(a JS object) is modelled as an association list with first-key-wins lookup;
a missing key or an empty-string translation (falsy) falls back to the
original text. -/
def lookupTranslated (translatedMap : List (List Char × List Char))
    (text : List Char) : List Char :=
  match translatedMap.find? fun p => p.1 == text with
  | some p => if p.2.isEmpty then text else p.2
  | none => text

/-- The `searchKeywords` list of `handleProcessAudio`: when cross-language
translation is active (`tm = some m`, modelling the `needsTranslation`
branch together with the map returned by `translateTextList`), every
keyword's text is replaced by its translation; otherwise the keywords are
used as they are. -/
def searchKeywordsOf (keywords : List Keyword)
    (tm : Option (List (List Char × List Char))) : List Keyword :=
  match tm with
  | none => keywords
  | some m => keywords.map fun k => { k with text := lookupTranslated m k.text }

/-- The `idToTranslatedText` record of `handleProcessAudio`, filled only in
the translation branch (later writes to the same id win, as in JS). -/
def idToTranslated (keywords : List Keyword)
    (m : List (List Char × List Char)) : Nat → Option (List Char) :=
  keywords.foldl
    (fun f k id =>
      if id == k.id then some (lookupTranslated m k.text) else f id)
    fun _ => none

/-- `idToTranslatedText[k.id]` as a total lookup: empty record when no
translation happened. -/
def transOf (keywords : List Keyword)
    (tm : Option (List (List Char × List Char))) : Nat → Option (List Char) :=
  match tm with
  | none => fun _ => none
  | some m => idToTranslated keywords m

/-- Step 1 of `handleProcessAudio` (client-side exact match) for one search
keyword: lower-case both the transcript and the keyword text, test
containment with `includes`, and build the update object
`{ detected, matchCount: isDetected ? 1 : 0, fuzzyCount: 0, fuzzySegments: [] }`. -/
def exactUpdate (transcription : List Char) (sk : Keyword) : MatchUpdate :=
  let normalizedTranscription := lowerStr transcription
  let lowerKeyword := lowerStr sk.text
  let isDetected := hasSub lowerKeyword normalizedTranscription
  { detected := isDetected, matchCount := if isDetected then 1 else 0,
    fuzzyCount := 0, fuzzySegments := [] }

/-- The `updates` record after the exact-match `forEach` loop
(`updates[sk.id] = …` for every search keyword; later keywords with the
same id overwrite earlier ones, as JS object assignment does). -/
def exactPassUpdates (transcription : List Char) (searchKeywords : List Keyword) :
    Nat → Option MatchUpdate :=
  searchKeywords.foldl
    (fun u sk id => if id == sk.id then some (exactUpdate transcription sk) else u id)
    fun _ => none

/-- Step 2 of `handleProcessAudio`: only keywords NOT detected by the exact
pass are sent to the LLM (`searchKeywords.filter(sk => !updates[sk.id]?.detected)`). -/
def keywordsForLLM (updates : Nat → Option MatchUpdate)
    (searchKeywords : List Keyword) : List Keyword :=
  searchKeywords.filter fun sk =>
    match updates sk.id with
    | some m => !m.detected
    | none => true

/-- The replacement update built from one LLM analysis entry
(`detected: r.absolute_pair > 0, matchCount: r.absolute_pair,
fuzzyCount: r.blur_pair, fuzzySegments: r.fuzzy_segments || []`).  The
object spread `{ ...updates[originalId], … }` overwrites all four fields,
so the old update does not survive. -/
def entryUpdate (r : AnalysisEntry) : MatchUpdate :=
  { detected := decide (0 < r.absolute_pair), matchCount := r.absolute_pair,
    fuzzyCount := r.blur_pair, fuzzySegments := r.fuzzy_segments.getD [] }

/-- One iteration of the `analysisResults.forEach` loop: look up the FIRST
search keyword whose text equals `r.object` exactly (`Array.find` with
`sk.text === r.object`), and overwrite its update; entries matching no
keyword are dropped. -/
def applyEntry (searchKeywords : List Keyword) (u : Nat → Option MatchUpdate)
    (r : AnalysisEntry) : Nat → Option MatchUpdate :=
  match searchKeywords.find? fun sk => sk.text == r.object with
  | none => u
  | some matchedSearchKeyword =>
      fun id =>
        if id == matchedSearchKeyword.id then some (entryUpdate r) else u id

/-- The whole `analysisResults.forEach` loop. -/
def applyAnalysis (searchKeywords : List Keyword) (rs : List AnalysisEntry)
    (u : Nat → Option MatchUpdate) : Nat → Option MatchUpdate :=
  rs.foldl (applyEntry searchKeywords) u

/-- Step 4 of `handleProcessAudio`: apply the updates to the original
keyword records (`{ ...k, ...(update || {}), translatedText }`); a missing
update leaves the record's match fields unchanged, and `translatedText` is
always overwritten (with `undefined` when no translation happened). -/
def applyUpdates (keywords : List Keyword) (u : Nat → Option MatchUpdate)
    (trans : Nat → Option (List Char)) : List Keyword :=
  keywords.map fun k =>
    match u k.id with
    | some m =>
        { k with detected := m.detected, matchCount := m.matchCount,
                 fuzzyCount := m.fuzzyCount, fuzzySegments := m.fuzzySegments,
                 translatedText := trans k.id }
    | none => { k with translatedText := trans k.id }

/-- The core of `handleProcessAudio` in `src/App.tsx` (the body of the
`try` block once a transcription exists), as a pure function.

* `tm` — `some m` iff `needsTranslation` held, with `m` the map returned by
  `translateTextList` (that service catches internally and returns `{}` on
  failure, so it never throws);
* `llm` — the value `analyzeKeywordsWithLLM` would return (`none` for
  `null`, i.e. a failed call: that service catches internally and never
  throws), consulted only when the LLM keyword set is non-empty;
* `prevMarked` — the `markedTranscription` state before the run (it is only
  reassigned in the branches that call `setMarkedTranscription`).

No modelled operation throws, so the surrounding `catch` (which would call
`setError`) is unreachable and `error` is the `null` written by
`setError(null)` at the start of the run. -/
def handleProcessAudio (transcription : List Char) (keywords : List Keyword)
    (tm : Option (List (List Char × List Char))) (llm : Option LLMResult)
    (prevMarked : Option (List Char)) : ProcessOut :=
  let searchKeywords := searchKeywordsOf keywords tm
  let trans := transOf keywords tm
  let updates := exactPassUpdates transcription searchKeywords
  let forLLM := keywordsForLLM updates searchKeywords
  if forLLM.isEmpty then
    { keywords := applyUpdates keywords updates trans, marked := none,
      error := none, hasAnalyzed := true }
  else
    match llm with
    | none =>
        { keywords := applyUpdates keywords updates trans,
          marked := prevMarked, error := none, hasAnalyzed := true }
    | some result =>
        { keywords :=
            applyUpdates keywords
              (applyAnalysis searchKeywords result.analysis updates) trans,
          marked := some result.marked_transcript,
          error := none, hasAnalyzed := true }

/-- Kind of a rendered transcript segment in `renderTranscriptionContent`
(`src/components/AudioInput.tsx`): plain text, an exact-match highlight
(emerald span) or a fuzzy-match highlight (amber span). -/
inductive SegKind where
  | plain
  | exact
  | fuzzy
deriving DecidableEq, Repr

/-- A rendered transcript segment: its style class and its visible text. -/
structure Seg where
  kind : SegKind
  text : List Char
deriving DecidableEq, Repr

/-- The two tag sorts of the server-marked transcript. -/
inductive Tag where
  | e
  | f
deriving DecidableEq, Repr

/-- Opening delimiter of a tag sort. -/
def tagOpen : Tag → List Char
  | Tag.e => '[' :: 'e' :: ']' :: []
  | Tag.f => '[' :: 'f' :: ']' :: []

/-- Closing delimiter of a tag sort. -/
def tagClose : Tag → List Char
  | Tag.e => '[' :: '/' :: 'e' :: ']' :: []
  | Tag.f => '[' :: '/' :: 'f' :: ']' :: []

/-- One part of the `split` result in server-marked mode: either untagged
text between matches, or one full regex match (tag markers included). -/
inductive MPart where
  | plain (t : List Char)
  | tagged (tg : Tag) (raw : List Char)
deriving DecidableEq, Repr

/-- Splits `s` at the first occurrence of `pat`, returning the part before
and the part after (leftmost occurrence, as JavaScript string search).
`none` when `pat` does not occur.  Only used with non-empty patterns. -/
def takeUntilSub (pat : List Char) : List Char → Option (List Char × List Char)
  | [] => none
  | c :: rest =>
    if pat.isPrefixOf (c :: rest) then some ([], (c :: rest).drop pat.length)
    else
      match takeUntilSub pat rest with
      | some (b, a) => some (c :: b, a)
      | none => none

/-- JavaScript `s.replace(pat, '')` with a string pattern: removes the
first occurrence of `pat`, or returns `s` unchanged if absent. -/
def stripFirst (pat : List Char) (s : List Char) : List Char :=
  match takeUntilSub pat s with
  | some (b, a) => b ++ a
  | none => s

/-- Whether one alternative of the split regex
`/(\[e\].*?\[\/e\]|\[f\].*?\[\/f\])/gs` matches at the START of `s`: the
lazy `.*?` makes the match run to the FIRST closing delimiter.  Returns the
tag sort, the full matched text and the remainder. -/
def tagAt (s : List Char) : Option (Tag × List Char × List Char) :=
  if (tagOpen Tag.e).isPrefixOf s then
    match takeUntilSub (tagClose Tag.e) (s.drop 3) with
    | some (mid, rest) =>
        some (Tag.e, tagOpen Tag.e ++ mid ++ tagClose Tag.e, rest)
    | none => none
  else if (tagOpen Tag.f).isPrefixOf s then
    match takeUntilSub (tagClose Tag.f) (s.drop 3) with
    | some (mid, rest) =>
        some (Tag.f, tagOpen Tag.f ++ mid ++ tagClose Tag.f, rest)
    | none => none
  else none

/-- The next (leftmost) match of the marked-transcript regex in `s`:
the untagged text before it, the tag sort, the raw match and the remainder. -/
def findNextMatch : List Char → Option (List Char × Tag × List Char × List Char)
  | [] => none
  | c :: rest =>
    match tagAt (c :: rest) with
    | some (tg, raw, after) => some ([], tg, raw, after)
    | none =>
      match findNextMatch rest with
      | some (b, tg, raw, a) => some (c :: b, tg, raw, a)
      | none => none

/-- Fuelled repeated matching, modelling the global (`g`) flag of the split
regex: emit the gap and the match, continue after the match.  `fuel`
bounds the number of matches; `splitMarked` supplies enough fuel for any
input (every match consumes at least one character). -/
def splitMarkedF : Nat → List Char → List MPart
  | 0, s => [MPart.plain s]
  | fuel + 1, s =>
    match findNextMatch s with
    | none => [MPart.plain s]
    | some (b, tg, raw, a) =>
        MPart.plain b :: MPart.tagged tg raw :: splitMarkedF fuel a

/-- `markedTranscription.split(/(\[e\].*?\[\/e\]|\[f\].*?\[\/f\])/gs)` in
`src/components/AudioInput.tsx`, keeping captured separators. -/
def splitMarked (s : List Char) : List MPart :=
  splitMarkedF s.length s

/-- Rendering of one split part (the `parts.map` body in server-marked
mode): a tagged part is displayed with its first `[x]` and first `[/x]`
occurrence removed (`part.replace('[e]', '').replace('[/e]', '')`), an
untagged part verbatim. -/
def mpartToSeg : MPart → Seg
  | MPart.plain t => { kind := SegKind.plain, text := t }
  | MPart.tagged Tag.e raw =>
      { kind := SegKind.exact,
        text := stripFirst (tagClose Tag.e) (stripFirst (tagOpen Tag.e) raw) }
  | MPart.tagged Tag.f raw =>
      { kind := SegKind.fuzzy,
        text := stripFirst (tagClose Tag.f) (stripFirst (tagOpen Tag.f) raw) }

/-- Server-marked rendering mode of `renderTranscriptionContent`. -/
def renderMarked (marked : List Char) : List Seg :=
  (splitMarked marked).map mpartToSeg

/-- Re-inserts the tag markers a segment's rendering stripped: the identity
on plain segments. -/
def restoreSeg : Seg → List Char
  | { kind := SegKind.plain, text := t } => t
  | { kind := SegKind.exact, text := t } => tagOpen Tag.e ++ t ++ tagClose Tag.e
  | { kind := SegKind.fuzzy, text := t } => tagOpen Tag.f ++ t ++ tagClose Tag.f

/-- Concatenation of the segments with their markers re-inserted. -/
def restoreConcat (segs : List Seg) : List Char :=
  segs.foldr (fun s acc => restoreSeg s ++ acc) []

/-- Concatenation of the segments' visible texts. -/
def textConcat (segs : List Seg) : List Char :=
  segs.foldr (fun s acc => s.text ++ acc) []

/-- Whether some phrase of the alternation matches at the start of `s`
(case-insensitively, each phrase being regex-escaped hence literal);
alternatives are tried in list order, as the regex engine does.  Returns
the matched length. -/
def matchAt (phrases : List (List Char)) (s : List Char) : Option Nat :=
  phrases.findSome? fun p =>
    if (lowerStr p).isPrefixOf (lowerStr s) then some p.length else none

/-- Leftmost match of the client-side highlight regex
`new RegExp(pattern, 'gi')`: the gap before the match, the matched text and
the remainder.  A zero-length match (possible only for an empty phrase,
which the keyword store cannot produce) is not treated as a match here; in
JavaScript such a match also consumes no visible text, so both semantics
tile the transcript. -/
def findMatch (phrases : List (List Char)) : List Char → Option (List Char × List Char × List Char)
  | [] => none
  | c :: rest =>
    match matchAt phrases (c :: rest) with
    | some n =>
        if n == 0 then none
        else some ([], (c :: rest).take n, (c :: rest).drop n)
    | none =>
      match findMatch phrases rest with
      | some (g, m, r) => some (c :: g, m, r)
      | none => none

/-- Fuelled repeated matching for `transcription.split(regex)` with the
captured separator included, as the global split produces
`[gap, match, gap, match, …, gap]`. -/
def clientPartsF (fuel : Nat) (phrases : List (List Char)) (s : List Char) :
    List (List Char) :=
  match fuel with
  | 0 => [s]
  | fuel + 1 =>
    match findMatch phrases s with
    | none => [s]
    | some (g, m, r) => g :: m :: clientPartsF fuel phrases r

/-- `transcription.split(regex)` of client fallback mode. -/
def clientParts (phrases : List (List Char)) (s : List Char) : List (List Char) :=
  clientPartsF s.length phrases s

/-- Classification of one split part in client fallback mode: exact if it
equals some detected keyword's text case-insensitively, else fuzzy if it
equals some fuzzy segment case-insensitively, else plain. -/
def classify (exactPhrases fuzzySegments : List (List Char))
    (part : List Char) : SegKind :=
  let lowerPart := lowerStr part
  if exactPhrases.any fun text => lowerStr text == lowerPart then SegKind.exact
  else if fuzzySegments.any fun text => lowerStr text == lowerPart then
    SegKind.fuzzy
  else SegKind.plain

/-- `Array.from(new Set(xs))`: deduplication keeping first occurrences. -/
def dedupAux (seen : List (List Char)) : List (List Char) → List (List Char)
  | [] => []
  | x :: rest =>
    if seen.contains x then dedupAux seen rest
    else x :: dedupAux (x :: seen) rest

/-- Stable insertion for the descending-length sort. -/
def insertByLen (x : List Char) : List (List Char) → List (List Char)
  | [] => [x]
  | y :: rest =>
    if y.length < x.length then x :: y :: rest
    else y :: insertByLen x rest

/-- `.sort((a, b) => b.length - a.length)`: stable sort by descending
length (modern JS engines sort stably). -/
def sortByLenDesc : List (List Char) → List (List Char)
  | [] => []
  | x :: rest => insertByLen x (sortByLenDesc rest)

/-- `renderTranscriptionContent` in `src/components/AudioInput.tsx`,
returning the list of rendered segments (the `<span>` sequence).  The
caller only invokes it when a transcription exists. -/
def renderTranscriptionContent (transcription : List Char)
    (markedTranscription : Option (List Char)) (keywords : List Keyword) :
    List Seg :=
  match markedTranscription with
  | some marked => renderMarked marked
  | none =>
    let exactKeywords := keywords.filter fun k => k.detected
    let fuzzySegments := keywords.foldr (fun k acc => k.fuzzySegments ++ acc) []
    if exactKeywords.isEmpty && fuzzySegments.isEmpty then
      [{ kind := SegKind.plain, text := transcription }]
    else
      let exactPhrases := exactKeywords.map fun k => k.text
      let allPhrases := exactPhrases ++ fuzzySegments
      let uniquePhrases := sortByLenDesc (dedupAux [] allPhrases)
      if uniquePhrases.isEmpty then
        [{ kind := SegKind.plain, text := transcription }]
      else
        (clientParts uniquePhrases transcription).map fun part =>
          { kind := classify exactPhrases fuzzySegments part, text := part }

/-- The id of the search keyword an LLM analysis entry is applied to (the
first keyword whose text equals the entry's `object`), if any. -/
def hitId (searchKeywords : List Keyword) (e : AnalysisEntry) : Option Nat :=
  (searchKeywords.find? fun sk => sk.text == e.object).map fun sk => sk.id

/-- The analysis entries that are applied to the update slot of a given
keyword id. -/
def entriesFor (searchKeywords : List Keyword) (rs : List AnalysisEntry)
    (id : Nat) : List AnalysisEntry :=
  rs.filter fun e => hitId searchKeywords e == some id

/-- Data-model fact: keyword ids are unique (`crypto.randomUUID()`). -/
abbrev idsNodup (ks : List Keyword) : Prop :=
  ks.Pairwise fun a b => a.id ≠ b.id

/-- Store invariant: at most 100 keywords. -/
abbrev sizeOk (ks : List Keyword) : Prop := ks.length ≤ 100

/-- Store invariant: no two records share case-insensitive text. -/
abbrev textsUnique (ks : List Keyword) : Prop :=
  ks.Pairwise fun a b => lowerStr a.text ≠ lowerStr b.text

/-- Spec example transcript for the exact pass (claim C1). -/
def trC1 : List Char := "The Quick Brown Fox".toList

/-- Spec example keyword for the exact pass (claim C1). -/
def kwC1 : Keyword :=
  { id := 7, text := "quick brown".toList, detected := false, matchCount := 0,
    fuzzyCount := 0, fuzzySegments := [], translatedText := none }

/-- C2 instance: a keyword whose translation collides with another keyword's
search text. -/
def kwC2a : Keyword :=
  { id := 1, text := "ka".toList, detected := false, matchCount := 0,
    fuzzyCount := 0, fuzzySegments := [], translatedText := none }

/-- C2 instance: the keyword whose text the translation collides with. -/
def kwC2b : Keyword :=
  { id := 2, text := "ab".toList, detected := false, matchCount := 0,
    fuzzyCount := 0, fuzzySegments := [], translatedText := none }

/-- C2 instance keyword list. -/
def ksC2 : List Keyword := [kwC2a, kwC2b]

/-- C2 instance translation map: "ka" translates to "ab". -/
def tmC2 : Option (List (List Char × List Char)) :=
  some [("ka".toList, "ab".toList)]

/-- C2 instance transcript (matches nothing exactly). -/
def traC2 : List Char := "zz".toList

/-- C2 instance service entry for the shared search text. -/
def entC2 : AnalysisEntry :=
  { object := "ab".toList, absolute_pair := 2, blur_pair := 0,
    fuzzy_segments := none }

/-- C2 instance service result. -/
def resC2 : LLMResult := { analysis := [entC2], marked_transcript := "zz".toList }

/-- C3 instance: keyword detected by the exact pass. -/
def kwC3a : Keyword :=
  { id := 1, text := "aa".toList, detected := false, matchCount := 0,
    fuzzyCount := 0, fuzzySegments := [], translatedText := none }

/-- C3 instance: keyword that misses and is sent to the failing service. -/
def kwC3b : Keyword :=
  { id := 2, text := "qq".toList, detected := false, matchCount := 0,
    fuzzyCount := 0, fuzzySegments := [], translatedText := none }

/-- C3 instance keyword list. -/
def ksC3 : List Keyword := [kwC3a, kwC3b]

/-- C3 instance transcript: contains "aa" but not "qq". -/
def traC3 : List Char := "aa xx".toList

/-- C4 instance: a keyword carrying stale match data before an edit. -/
def kwC4 : Keyword :=
  { id := 1, text := "old".toList, detected := true, matchCount := 1,
    fuzzyCount := 2, fuzzySegments := ["stale".toList],
    translatedText := some "tr".toList }

/-- C5 instance: a 21-character all-ASCII text, one over the 20 limit. -/
def tC5 : List Char := List.replicate 21 'a'

/-- C6 instance: a store already holding 100 keywords. -/
def ksC6 : List Keyword :=
  (List.range 100).map fun i =>
    { id := i, text := ['k'], detected := false, matchCount := 0,
      fuzzyCount := 0, fuzzySegments := [], translatedText := none }

/-- C7 instance: a small store satisfying all invariants. -/
def ksC7 : List Keyword :=
  [{ id := 1, text := "Alpha".toList, detected := true, matchCount := 1,
     fuzzyCount := 0, fuzzySegments := [], translatedText := none },
   { id := 2, text := "beta".toList, detected := false, matchCount := 0,
     fuzzyCount := 1, fuzzySegments := ["b".toList], translatedText := none }]

/-- C8 instance: detected keyword "abc" with fuzzy segment "abcd" (the spec's
descending-length example). -/
def ksC8 : List Keyword :=
  [{ id := 1, text := "abc".toList, detected := true, matchCount := 1,
     fuzzyCount := 1, fuzzySegments := ["abcd".toList], translatedText := none }]

/-- C8 instance transcript for client fallback mode. -/
def trC8 : List Char := "abc ABCD".toList

/-- C8 instance server-marked transcript. -/
def mkC8 : List Char := "he [e]cat[/e] x [f]dog[/f]!".toList

/-- C9 instance: keyword whose translation collides with keyword 2's text. -/
def kwC9a : Keyword :=
  { id := 1, text := "ka".toList, detected := false, matchCount := 0,
    fuzzyCount := 0, fuzzySegments := [], translatedText := none }

/-- C9 instance: keyword whose text equals keyword 1's translated text. -/
def kwC9b : Keyword :=
  { id := 2, text := "urgent".toList, detected := false, matchCount := 0,
    fuzzyCount := 0, fuzzySegments := [], translatedText := none }

/-- C9 instance keyword list. -/
def ksC9 : List Keyword := [kwC9a, kwC9b]

/-- C9 instance translation map: "ka" translates to "urgent". -/
def tmC9 : Option (List (List Char × List Char)) :=
  some [("ka".toList, "urgent".toList)]

/-- C9 instance transcript (matches nothing exactly). -/
def traC9 : List Char := "xx".toList

/-- C9 instance service entry for the shared search text. -/
def entC9 : AnalysisEntry :=
  { object := "urgent".toList, absolute_pair := 1, blur_pair := 0,
    fuzzy_segments := none }

/-- C9 instance service result. -/
def resC9 : LLMResult := { analysis := [entC9], marked_transcript := "mm".toList }

/-- C9 witness instance: first of two records with equal search text. -/
def kwC9wa : Keyword :=
  { id := 1, text := "uu".toList, detected := false, matchCount := 0,
    fuzzyCount := 0, fuzzySegments := [], translatedText := none }

/-- C9 witness instance: second record with the same search text. -/
def kwC9wb : Keyword :=
  { id := 2, text := "uu".toList, detected := false, matchCount := 0,
    fuzzyCount := 0, fuzzySegments := [], translatedText := none }

/-- C9 witness instance keyword list. -/
def sksC9w : List Keyword := [kwC9wa, kwC9wb]

/-- C9 witness instance service entry. -/
def entC9w : AnalysisEntry :=
  { object := "uu".toList, absolute_pair := 1, blur_pair := 2,
    fuzzy_segments := some ["s".toList] }

/-- C10 instance: keyword detected by the exact pass (NOT submitted). -/
def kwC10a : Keyword :=
  { id := 1, text := "aa".toList, detected := false, matchCount := 0,
    fuzzyCount := 0, fuzzySegments := [], translatedText := none }

/-- C10 instance: undetected keyword (the only one submitted). -/
def kwC10b : Keyword :=
  { id := 2, text := "qq".toList, detected := false, matchCount := 0,
    fuzzyCount := 0, fuzzySegments := [], translatedText := none }

/-- C10 instance keyword list. -/
def ksC10 : List Keyword := [kwC10a, kwC10b]

/-- C10 instance transcript: contains "aa" only. -/
def traC10 : List Char := "aa".toList

/-- C10 instance service entry whose object equals the NOT-submitted
keyword's text. -/
def entC10 : AnalysisEntry :=
  { object := "aa".toList, absolute_pair := 0, blur_pair := 3,
    fuzzy_segments := some ["ss".toList] }

/-- C10 instance service result. -/
def resC10 : LLMResult :=
  { analysis := [entC10], marked_transcript := "mm".toList }

/-- C10 witness instance keyword. -/
def kwC10w : Keyword :=
  { id := 1, text := "bb".toList, detected := false, matchCount := 0,
    fuzzyCount := 0, fuzzySegments := [], translatedText := none }

/-- C10 witness instance entry matching no keyword's text. -/
def entC10w : AnalysisEntry :=
  { object := "zz".toList, absolute_pair := 1, blur_pair := 1,
    fuzzy_segments := none }

/-- Bridge between the executable `isPrefixOf` and the `<+:` relation. -/
theorem isPrefixOf_iff (l₁ l₂ : List Char) : l₁.isPrefixOf l₂ = true ↔ l₁ <+: l₂ :=
  List.isPrefixOf_iff_prefix

/-- Reversing turns suffixes into prefixes. -/
theorem reverse_prefix_iff (l₁ l₂ : List Char) :
    l₁.reverse <+: l₂.reverse ↔ l₁ <:+ l₂ :=
  List.reverse_prefix

/-- A take is a prefix of the list. -/
theorem take_prefix_self (n : Nat) (l : List Char) : l.take n <+: l :=
  List.take_prefix n l

theorem hasSub_iff (pat s : List Char) : hasSub pat s = true ↔ pat <:+: s := by
  induction s with
  | nil =>
      constructor
      · intro h
        have hnil : pat = [] := by simpa [hasSub, List.isEmpty_iff] using h
        exact hnil ▸ List.infix_rfl
      · intro h
        have hnil : pat = [] := List.eq_nil_of_infix_nil h
        simp [hasSub, hnil]
  | cons c rest ih =>
      simp only [hasSub, Bool.or_eq_true, isPrefixOf_iff _ _, ih,
        List.infix_cons_iff]

theorem dropWhile_idem (p : Char → Bool) (l : List Char) :
    (l.dropWhile p).dropWhile p = l.dropWhile p := by
  induction l with
  | nil => rfl
  | cons c rest ih =>
      by_cases h : p c = true
      · simp [List.dropWhile_cons, h, ih]
      · simp [List.dropWhile_cons, h]

theorem trimRight_prefix_self (s : List Char) : trimRight s <+: s := by
  unfold trimRight
  have h := List.dropWhile_suffix (l := s.reverse) Char.isWhitespace
  have h2 : (s.reverse.dropWhile Char.isWhitespace).reverse <+: s.reverse.reverse :=
    reverse_prefix_iff _ _ |>.mpr h
  simpa using h2

theorem trimLeft_of_prefix_self (x y : List Char) (hx : trimLeft x = x)
    (hp : y <+: x) : trimLeft y = y := by
  cases y with
  | nil => rfl
  | cons a y' =>
      obtain ⟨t, ht⟩ := hp
      by_cases ha : Char.isWhitespace a = true
      · exfalso
        rw [← ht] at hx
        have hdrop : trimLeft (a :: (y' ++ t)) = trimLeft (y' ++ t) := by
          simp [trimLeft, List.dropWhile_cons, ha]
        rw [List.cons_append] at hx
        rw [hdrop] at hx
        have hle : (trimLeft (y' ++ t)).length ≤ (y' ++ t).length :=
          (List.dropWhile_suffix Char.isWhitespace).length_le
        rw [hx] at hle
        simp at hle
      · simp [trimLeft, List.dropWhile_cons, ha]

theorem trimRight_idem (s : List Char) : trimRight (trimRight s) = trimRight s := by
  unfold trimRight
  rw [List.reverse_reverse, dropWhile_idem]

theorem trim_idem (s : List Char) : trim (trim s) = trim s := by
  unfold trim
  have h1 : trimLeft (trimLeft s) = trimLeft s := dropWhile_idem _ s
  have h2 : trimLeft (trimRight (trimLeft s)) = trimRight (trimLeft s) :=
    trimLeft_of_prefix_self (trimLeft s) _ h1 (trimRight_prefix_self (trimLeft s))
  rw [h2, trimRight_idem]

theorem takeUntilSub_eq_some (pat s b a : List Char)
    (h : takeUntilSub pat s = some (b, a)) : s = b ++ pat ++ a := by
  induction s generalizing b with
  | nil => simp [takeUntilSub] at h
  | cons c rest ih =>
      rw [takeUntilSub] at h
      by_cases hp : pat.isPrefixOf (c :: rest) = true
      · rw [if_pos hp] at h
        obtain ⟨t, ht⟩ := (isPrefixOf_iff _ _).mp hp
        injection h with h'
        injection h' with hb ha
        subst hb
        rw [← ha, ← ht, List.drop_left]
        simp
      · rw [if_neg hp] at h
        cases hrec : takeUntilSub pat rest with
        | none => rw [hrec] at h; exact absurd h (by simp)
        | some p =>
            obtain ⟨b', a'⟩ := p
            rw [hrec] at h
            injection h with h'
            injection h' with hb ha
            subst ha
            rw [← hb]
            have := ih b' hrec
            simp [this]

theorem takeUntilSub_none_before (pat s b a : List Char)
    (h : takeUntilSub pat s = some (b, a)) : takeUntilSub pat b = none := by
  induction s generalizing b a with
  | nil => simp [takeUntilSub] at h
  | cons c rest ih =>
      rw [takeUntilSub] at h
      by_cases hp : pat.isPrefixOf (c :: rest) = true
      · rw [if_pos hp] at h
        injection h with h'
        injection h' with hb _
        rw [← hb]
        rfl
      · rw [if_neg hp] at h
        cases hrec : takeUntilSub pat rest with
        | none => rw [hrec] at h; exact absurd h (by simp)
        | some p =>
            obtain ⟨b', a'⟩ := p
            rw [hrec] at h
            injection h with h'
            injection h' with hb _
            rw [← hb, takeUntilSub]
            have hnp : pat.isPrefixOf (c :: b') = false := by
              rw [Bool.eq_false_iff]
              intro hcontra
              apply hp
              rw [isPrefixOf_iff] at hcontra ⊢
              have hrest : rest = b' ++ pat ++ a' :=
                takeUntilSub_eq_some pat rest b' a' hrec
              calc pat <+: c :: b' := hcontra
                _ <+: (c :: b') ++ (pat ++ a') := List.prefix_append _ _
                _ = c :: rest := by simp [hrest]
            rw [hnp]
            simp only [Bool.false_eq_true, if_false]
            rw [ih b' a' hrec]

theorem takeUntilSub_self_append (p : Char) (ps x : List Char) :
    takeUntilSub (p :: ps) ((p :: ps) ++ x) = some ([], x) := by
  have hpre : (p :: ps).isPrefixOf ((p :: ps) ++ x) = true :=
    (isPrefixOf_iff _ _).mpr (List.prefix_append _ _)
  rw [List.cons_append, takeUntilSub, ← List.cons_append, if_pos hpre,
    List.drop_left]

theorem stripFirst_self_append (p : Char) (ps x : List Char) :
    stripFirst (p :: ps) ((p :: ps) ++ x) = x := by
  rw [stripFirst, takeUntilSub_self_append]
  rfl

theorem takeUntilSub_append_self (pat : List Char) (hne : pat ≠ [])
    (hov : ∀ k, k < pat.length → 0 < k →
      pat.drop k ≠ pat.take (pat.length - k))
    (mid : List Char) (hnone : takeUntilSub pat mid = none) :
    takeUntilSub pat (mid ++ pat) = some (mid, []) := by
  induction mid with
  | nil =>
      obtain ⟨p, ps, rfl⟩ : ∃ p ps, pat = p :: ps := by
        cases pat with
        | nil => exact absurd rfl hne
        | cons p ps => exact ⟨p, ps, rfl⟩
      simpa using takeUntilSub_self_append p ps []
  | cons c mid' ih =>
      have hsplit : pat.isPrefixOf (c :: mid') = false ∧
          takeUntilSub pat mid' = none := by
        rw [takeUntilSub] at hnone
        by_cases hp : pat.isPrefixOf (c :: mid') = true
        · rw [if_pos hp] at hnone; exact absurd hnone (by simp)
        · rw [if_neg hp] at hnone
          cases hrec : takeUntilSub pat mid' with
          | none => exact ⟨Bool.eq_false_iff.mpr hp, rfl⟩
          | some q =>
              obtain ⟨b', a'⟩ := q
              rw [hrec] at hnone
              exact absurd hnone (by simp)
      have hnp : pat.isPrefixOf ((c :: mid') ++ pat) = false := by
        rw [Bool.eq_false_iff]
        intro hcontra
        rw [isPrefixOf_iff] at hcontra
        by_cases hlen : pat.length ≤ (c :: mid').length
        · apply Bool.eq_false_iff.mp hsplit.1
          rw [isPrefixOf_iff]
          obtain ⟨t, ht⟩ := hcontra
          have htake : ((c :: mid') ++ pat).take pat.length
              = (c :: mid').take pat.length :=
            List.take_append_of_le_length hlen
          have hpat : pat = (c :: mid').take pat.length := by
            rw [← htake, ← ht, List.take_append_of_le_length (le_refl _),
              List.take_length]
          rw [hpat]
          exact take_prefix_self _ _
        · push_neg at hlen
          obtain ⟨t, ht⟩ := hcontra
          set k := (c :: mid').length with hk
          have hkpos : 0 < k := by simp [hk]
          -- from pat ++ t = (c :: mid') ++ pat, dropping k characters
          have hdropL : (pat ++ t).drop k = pat.drop k ++ t :=
            List.drop_append_of_le_length (le_of_lt hlen)
          have hdropR : ((c :: mid') ++ pat).drop k = pat := List.drop_left _ _
          have hdrop : pat.drop k ++ t = pat := by rw [← hdropL, ht, hdropR]
          have hlen2 : (pat.drop k).length = pat.length - k := by simp
          have htk : pat.take (pat.length - k)
              = (pat.drop k ++ t).take (pat.length - k) := by rw [hdrop]
          rw [List.take_append_of_le_length (le_of_eq hlen2.symm)] at htk
          rw [List.take_of_length_le (le_of_eq hlen2)] at htk
          exact hov k hlen hkpos htk.symm
      rw [List.cons_append, takeUntilSub, ← List.cons_append, hnp]
      simp only [Bool.false_eq_true, if_false]
      rw [ih hsplit.2]

theorem stripFirst_append_self (pat : List Char) (hne : pat ≠ [])
    (hov : ∀ k, k < pat.length → 0 < k →
      pat.drop k ≠ pat.take (pat.length - k))
    (mid : List Char) (hnone : takeUntilSub pat mid = none) :
    stripFirst pat (mid ++ pat) = mid := by
  rw [stripFirst, takeUntilSub_append_self pat hne hov mid hnone]
  simp

theorem tagClose_overlap_free (tg : Tag) :
    ∀ k, k < (tagClose tg).length → 0 < k →
      (tagClose tg).drop k ≠ (tagClose tg).take ((tagClose tg).length - k) := by
  cases tg <;> decide

theorem tagAt_spec (s : List Char) (tg : Tag) (raw rest : List Char)
    (h : tagAt s = some (tg, raw, rest)) :
    ∃ mid, raw = tagOpen tg ++ mid ++ tagClose tg ∧
      takeUntilSub (tagClose tg) mid = none ∧ s = raw ++ rest := by
  rw [tagAt] at h
  by_cases he : (tagOpen Tag.e).isPrefixOf s = true
  · rw [if_pos he] at h
    cases hrec : takeUntilSub (tagClose Tag.e) (s.drop 3) with
    | none => rw [hrec] at h; exact absurd h (by simp)
    | some q =>
        obtain ⟨mid, rest'⟩ := q
        rw [hrec] at h
        simp only [Option.some.injEq, Prod.mk.injEq] at h
        obtain ⟨h1, h2, h3⟩ := h
        subst h1 h3
        refine ⟨mid, h2.symm, takeUntilSub_none_before _ _ _ _ hrec, ?_⟩
        obtain ⟨t, ht⟩ := (isPrefixOf_iff _ _).mp he
        have htdrop : s.drop 3 = t := by
          rw [← ht, show (3 : Nat) = (tagOpen Tag.e).length from rfl,
            List.drop_left]
        have ht2 : t = mid ++ tagClose Tag.e ++ rest' := by
          rw [← htdrop]
          exact takeUntilSub_eq_some _ _ _ _ hrec
        rw [← h2, ← ht, ht2]
        simp
  · rw [if_neg he] at h
    by_cases hf : (tagOpen Tag.f).isPrefixOf s = true
    · rw [if_pos hf] at h
      cases hrec : takeUntilSub (tagClose Tag.f) (s.drop 3) with
      | none => rw [hrec] at h; exact absurd h (by simp)
      | some q =>
          obtain ⟨mid, rest'⟩ := q
          rw [hrec] at h
          simp only [Option.some.injEq, Prod.mk.injEq] at h
          obtain ⟨h1, h2, h3⟩ := h
          subst h1 h3
          refine ⟨mid, h2.symm, takeUntilSub_none_before _ _ _ _ hrec, ?_⟩
          obtain ⟨t, ht⟩ := (isPrefixOf_iff _ _).mp hf
          have htdrop : s.drop 3 = t := by
            rw [← ht, show (3 : Nat) = (tagOpen Tag.f).length from rfl,
              List.drop_left]
          have ht2 : t = mid ++ tagClose Tag.f ++ rest' := by
            rw [← htdrop]
            exact takeUntilSub_eq_some _ _ _ _ hrec
          rw [← h2, ← ht, ht2]
          simp
    · rw [if_neg hf] at h
      exact absurd h (by simp)

theorem findNextMatch_spec (s b : List Char) (tg : Tag) (raw a : List Char)
    (h : findNextMatch s = some (b, tg, raw, a)) :
    ∃ mid, raw = tagOpen tg ++ mid ++ tagClose tg ∧
      takeUntilSub (tagClose tg) mid = none ∧ s = b ++ raw ++ a := by
  induction s generalizing b with
  | nil => simp [findNextMatch] at h
  | cons c rest ih =>
      rw [findNextMatch] at h
      cases htag : tagAt (c :: rest) with
      | some q =>
          obtain ⟨tg', raw', after⟩ := q
          rw [htag] at h
          simp only [Option.some.injEq, Prod.mk.injEq] at h
          obtain ⟨h1, h2, h3, h4⟩ := h
          subst h2 h3 h4
          obtain ⟨mid, hraw, hnone, hs⟩ := tagAt_spec _ _ _ _ htag
          exact ⟨mid, hraw, hnone, by rw [← h1, hs]; simp⟩
      | none =>
          rw [htag] at h
          cases hrec : findNextMatch rest with
          | none => rw [hrec] at h; exact absurd h (by simp)
          | some q =>
              obtain ⟨b', tg', raw', a'⟩ := q
              rw [hrec] at h
              simp only [Option.some.injEq, Prod.mk.injEq] at h
              obtain ⟨h1, h2, h3, h4⟩ := h
              subst h2 h3 h4
              obtain ⟨mid, hraw, hnone, hs⟩ := ih b' hrec
              exact ⟨mid, hraw, hnone, by rw [← h1, hs]; simp⟩

theorem restore_tagged (tg : Tag) (mid : List Char)
    (hnone : takeUntilSub (tagClose tg) mid = none) :
    restoreSeg (mpartToSeg (MPart.tagged tg (tagOpen tg ++ mid ++ tagClose tg)))
      = tagOpen tg ++ mid ++ tagClose tg := by
  have h1 : stripFirst (tagOpen tg) (tagOpen tg ++ (mid ++ tagClose tg))
      = mid ++ tagClose tg := by
    cases tg <;> exact stripFirst_self_append _ _ _
  have h2 : stripFirst (tagClose tg) (mid ++ tagClose tg) = mid := by
    refine stripFirst_append_self (tagClose tg) ?_ (tagClose_overlap_free tg)
      mid hnone
    cases tg <;> simp [tagClose]
  cases tg <;>
    simp only [mpartToSeg, restoreSeg, List.append_assoc] at h1 h2 ⊢ <;>
    rw [h1, h2]

theorem splitMarkedF_restore (fuel : Nat) (s : List Char) :
    restoreConcat ((splitMarkedF fuel s).map mpartToSeg) = s := by
  induction fuel generalizing s with
  | zero => simp [splitMarkedF, restoreConcat, restoreSeg, mpartToSeg]
  | succ fuel ih =>
      cases h : findNextMatch s with
      | none =>
          rw [splitMarkedF, h]
          simp [restoreConcat, restoreSeg, mpartToSeg]
      | some q =>
          obtain ⟨b, tg, raw, a⟩ := q
          obtain ⟨mid, hraw, hnone, hs⟩ := findNextMatch_spec _ _ _ _ _ h
          rw [splitMarkedF, h]
          have htail := ih a
          simp only [restoreConcat, List.map_cons, List.foldr_cons] at htail ⊢
          rw [show restoreSeg (mpartToSeg (MPart.plain b)) = b from rfl, hraw,
            restore_tagged tg mid hnone, htail, hs, hraw]
          simp

theorem findMatch_spec (phrases : List (List Char)) (s g m r : List Char)
    (h : findMatch phrases s = some (g, m, r)) : s = g ++ m ++ r := by
  induction s generalizing g with
  | nil => simp [findMatch] at h
  | cons c rest ih =>
      rw [findMatch] at h
      cases hm : matchAt phrases (c :: rest) with
      | some n =>
          rw [hm] at h
          by_cases hn : (n == 0) = true
          · simp [hn] at h
          · simp only [hn, Bool.false_eq_true, if_false, Option.some.injEq,
              Prod.mk.injEq] at h
            obtain ⟨h1, h2, h3⟩ := h
            rw [← h1, ← h2, ← h3]
            simp
      | none =>
          rw [hm] at h
          cases hrec : findMatch phrases rest with
          | none => rw [hrec] at h; exact absurd h (by simp)
          | some q =>
              obtain ⟨g', m', r'⟩ := q
              rw [hrec] at h
              simp only [Option.some.injEq, Prod.mk.injEq] at h
              obtain ⟨h1, h2, h3⟩ := h
              subst h2 h3
              rw [← h1, ih g' hrec]
              simp

theorem clientPartsF_text (fuel : Nat) (phrases exactPhrases fuzzySegments : List (List Char))
    (s : List Char) :
    textConcat ((clientPartsF fuel phrases s).map fun part =>
      { kind := classify exactPhrases fuzzySegments part, text := part }) = s := by
  induction fuel generalizing s with
  | zero => simp [clientPartsF, textConcat]
  | succ fuel ih =>
      cases h : findMatch phrases s with
      | none =>
          rw [clientPartsF, h]
          simp [textConcat]
      | some q =>
          obtain ⟨g, m, r⟩ := q
          rw [clientPartsF, h]
          have htail := ih r
          simp only [textConcat, List.map_cons, List.foldr_cons] at htail ⊢
          rw [htail, findMatch_spec phrases s g m r h]
          simp

theorem applyAnalysis_eq (searchKeywords : List Keyword)
    (rs : List AnalysisEntry) (u : Nat → Option MatchUpdate) (id : Nat) :
    applyAnalysis searchKeywords rs u id =
      match (entriesFor searchKeywords rs id).getLast? with
      | some e => some (entryUpdate e)
      | none => u id := by
  induction rs generalizing u with
  | nil => rfl
  | cons r rs ih =>
      have hstep : applyAnalysis searchKeywords (r :: rs) u
          = applyAnalysis searchKeywords rs (applyEntry searchKeywords u r) := rfl
      rw [hstep, ih]
      have hfilter : entriesFor searchKeywords (r :: rs) id
          = if (hitId searchKeywords r == some id) = true
            then r :: entriesFor searchKeywords rs id
            else entriesFor searchKeywords rs id := by
        simp [entriesFor, List.filter_cons]
      by_cases hr : (hitId searchKeywords r == some id) = true
      · rw [hfilter, if_pos hr]
        cases hes : entriesFor searchKeywords rs id with
        | nil =>
            simp only [List.getLast?_nil, List.getLast?_singleton]
            have hid : hitId searchKeywords r = some id := by
              simpa using hr
            rw [hitId] at hid
            cases hfind : searchKeywords.find? fun sk => sk.text == r.object with
            | none => rw [hfind] at hid; exact absurd hid (by simp)
            | some sk =>
                rw [hfind] at hid
                simp only [Option.map_some', Option.some.injEq] at hid
                simp only [applyEntry, hfind]
                show (if (id == sk.id) = true then some (entryUpdate r) else u id)
                  = some (entryUpdate r)
                rw [if_pos (by simp [hid])]
        | cons e es =>
            rw [List.getLast?_cons_cons]
            cases hlast : (e :: es).getLast? with
            | none =>
                exfalso
                rw [List.getLast?_eq_none_iff] at hlast
                exact List.cons_ne_nil e es hlast
            | some x => rfl
      · rw [hfilter, if_neg hr]
        cases hes : entriesFor searchKeywords rs id with
        | nil =>
            simp only [List.getLast?_nil]
            cases hfind : searchKeywords.find? fun sk => sk.text == r.object with
            | none => simp only [applyEntry, hfind]
            | some sk =>
                have hne : (id == sk.id) = false := by
                  rw [Bool.eq_false_iff]
                  intro hcontra
                  apply hr
                  simp only [hitId, hfind, Option.map_some']
                  simp only [beq_iff_eq] at hcontra ⊢
                  simp [hcontra]
                simp only [applyEntry, hfind]
                show (if (id == sk.id) = true then some (entryUpdate r) else u id)
                  = u id
                rw [hne]
                simp
        | cons e es => rfl

theorem applyUpdates_congr (keywords : List Keyword)
    (u u' : Nat → Option MatchUpdate) (trans : Nat → Option (List Char))
    (h : ∀ id, u id = u' id) :
    applyUpdates keywords u trans = applyUpdates keywords u' trans := by
  unfold applyUpdates
  apply List.map_congr_left
  intro k _
  rw [h k.id]

/-- C1: for every transcript and keyword, the exact pass lower-cases both
the keyword's search text and the transcript and tests substring
containment: containment gives `matchCount = 1` and `detected = true`,
otherwise `matchCount = 0` and `detected = false`; the produced
`matchCount` is never greater than 1, regardless of how many occurrences
the transcript contains. -/
theorem c1_exact_pass (transcription : List Char) (sk : Keyword) :
    ((exactUpdate transcription sk).detected = true ↔
      lowerStr sk.text <:+: lowerStr transcription)
    ∧ (lowerStr sk.text <:+: lowerStr transcription →
        (exactUpdate transcription sk).detected = true
        ∧ (exactUpdate transcription sk).matchCount = 1)
    ∧ (¬ lowerStr sk.text <:+: lowerStr transcription →
        (exactUpdate transcription sk).detected = false
        ∧ (exactUpdate transcription sk).matchCount = 0)
    ∧ (exactUpdate transcription sk).matchCount ≤ 1 := by
  have hiff := hasSub_iff (lowerStr sk.text) (lowerStr transcription)
  by_cases h : hasSub (lowerStr sk.text) (lowerStr transcription) = true
  · refine ⟨?_, ?_, ?_, ?_⟩ <;> simp [exactUpdate, h, ← hiff]
  · rw [Bool.not_eq_true] at h
    refine ⟨?_, ?_, ?_, ?_⟩ <;> simp [exactUpdate, h, ← hiff]

/-- C1 witness: the spec's own example, transcript "The Quick Brown Fox"
and keyword "quick brown". -/
theorem c1_exact_pass_witness :
    (exactUpdate trC1 kwC1).detected = true
    ∧ (exactUpdate trC1 kwC1).matchCount = 1 :=
  (c1_exact_pass trC1 kwC1).2.1 ((hasSub_iff _ _).mp (by decide))

/-- C2 counterexample: through translation, keywords 1 and 2 both get
search text "ab"; neither is exact-detected, so BOTH are submitted to the
service, which returns one entry for "ab" with `absolute_pair = 2`.  The
claim says every submitted keyword with a returned entry gets the
service's result, but keyword 2's merged update stays at its exact-pass
values (`detected = false`, `matchCount = 0`), not the service's
(`detected = true`, `matchCount = 2`): `Array.find` applies the entry only
to the first keyword with that text. -/
theorem c2_counterexample :
    ((searchKeywordsOf ksC2 tmC2).map fun k => k.text)
      = ["ab".toList, "ab".toList]
    ∧ ((keywordsForLLM (exactPassUpdates traC2 (searchKeywordsOf ksC2 tmC2))
        (searchKeywordsOf ksC2 tmC2)).map fun k => k.id) = [1, 2]
    ∧ resC2.analysis = [entC2]
    ∧ entC2.object = "ab".toList
    ∧ entryUpdate entC2
      = { detected := true, matchCount := 2, fuzzyCount := 0, fuzzySegments := [] }
    ∧ ((handleProcessAudio traC2 ksC2 tmC2 (some resC2) none).keywords.map
        fun k => (k.id, k.detected, k.matchCount))
      = [(1, true, 2), (2, false, 0)] := by decide

/-- C2 amended: when the service is called and returns, each analysis entry
is applied — by exact text lookup over ALL search keywords, first match in
list order — to that keyword's id, fully replacing its update with
`matchCount = absolute_pair`, `fuzzyCount = blur_pair`, `fuzzySegments` the
returned segments (or empty) and `detected = absolute_pair > 0` (the last
applicable entry wins); every keyword hit by no entry keeps its exact-pass
result. -/
theorem c2_amended (transcription : List Char) (keywords : List Keyword)
    (tm : Option (List (List Char × List Char))) (result : LLMResult)
    (prevMarked : Option (List Char))
    (hllm : (keywordsForLLM
        (exactPassUpdates transcription (searchKeywordsOf keywords tm))
        (searchKeywordsOf keywords tm)).isEmpty = false) :
    (handleProcessAudio transcription keywords tm (some result) prevMarked).keywords
      = applyUpdates keywords
          (fun id =>
            match (entriesFor (searchKeywordsOf keywords tm) result.analysis
                id).getLast? with
            | some e => some (entryUpdate e)
            | none => exactPassUpdates transcription
                (searchKeywordsOf keywords tm) id)
          (transOf keywords tm) := by
  simp only [handleProcessAudio, hllm, Bool.false_eq_true, if_false]
  exact applyUpdates_congr _ _ _ _ fun id => applyAnalysis_eq _ _ _ id

/-- C2 amended witness: the amended merge rule evaluated on the C2
instance. -/
theorem c2_amended_witness :
    (handleProcessAudio traC2 ksC2 tmC2 (some resC2) none).keywords
      = applyUpdates ksC2
          (fun id =>
            match (entriesFor (searchKeywordsOf ksC2 tmC2) resC2.analysis
                id).getLast? with
            | some e => some (entryUpdate e)
            | none => exactPassUpdates traC2 (searchKeywordsOf ksC2 tmC2) id)
          (transOf ksC2 tmC2) :=
  c2_amended traC2 ksC2 tmC2 resC2 none (by decide)

/-- C3 counterexample: the semantic-match call fails (the service returns
`null`).  Analysis does complete with exact-pass-only results — the
exact-detected keyword 1 stays detected — and no marked transcript is
produced, but NO error is surfaced: `error` is the `null` written by
`setError(null)` at the start of the run, because `analyzeKeywordsWithLLM`
catches internally and never throws, so the `catch` that would call
`setError` is unreachable.  This contradicts the claim's "a non-fatal error
is surfaced to the user". -/
theorem c3_counterexample :
    handleProcessAudio traC3 ksC3 none none none
      = { keywords :=
            [{ kwC3a with detected := true, matchCount := 1 }, kwC3b],
          marked := none, error := none, hasAnalyzed := true } := by decide

/-- C3 amended: if the semantic-match call fails (returns null), analysis
still completes: every keyword gets exactly its exact-pass result, the
`markedTranscription` state is left unchanged (no new marked transcript is
produced), `hasAnalyzed` is set, and NO error is surfaced — the failure is
silent (logged to the console only). -/
theorem c3_amended (transcription : List Char) (keywords : List Keyword)
    (tm : Option (List (List Char × List Char)))
    (prevMarked : Option (List Char))
    (hllm : (keywordsForLLM
        (exactPassUpdates transcription (searchKeywordsOf keywords tm))
        (searchKeywordsOf keywords tm)).isEmpty = false) :
    handleProcessAudio transcription keywords tm none prevMarked
      = { keywords := applyUpdates keywords
            (exactPassUpdates transcription (searchKeywordsOf keywords tm))
            (transOf keywords tm),
          marked := prevMarked, error := none, hasAnalyzed := true } := by
  simp only [handleProcessAudio, hllm, Bool.false_eq_true, if_false]

/-- C3 amended witness: service failure on the C3 instance with a previous
marked transcript in place. -/
theorem c3_amended_witness :
    handleProcessAudio traC3 ksC3 none none (some "pm".toList)
      = { keywords := applyUpdates ksC3
            (exactPassUpdates traC3 (searchKeywordsOf ksC3 none))
            (transOf ksC3 none),
          marked := some "pm".toList, error := none, hasAnalyzed := true } :=
  c3_amended traC3 ksC3 none (some "pm".toList) (by decide)

/-- C4 (code bug): `saveEdit` resets `detected`, `matchCount` and
`fuzzyCount` but NOT `fuzzySegments` (`KeywordManager.tsx` line 150 writes
`{ ...k, text: trimmed, detected: false, matchCount: 0, fuzzyCount: 0 }`),
so a successful edit of a keyword carrying `fuzzySegments = ["stale"]`
leaves those segments (and the stale `translatedText`) on the record, in
contradiction with the claim and with every other reset site in the app,
which all clear `fuzzySegments`. -/
theorem c4_fuzzy_segments_survive_edit :
    saveEdit [kwC4] 1 "new".toList
      = EditResult.saved
          [{ id := 1, text := "new".toList, detected := false, matchCount := 0,
             fuzzyCount := 0, fuzzySegments := ["stale".toList],
             translatedText := some "tr".toList }] := by decide

/-- C5: the length limit applied by add and edit validation is 20 when
every character's code point is at most 0xFF and 10 when some character is
above 0xFF; a (trimmed) text longer than its applicable limit is never
accepted by `submitAddKeyword` or `saveEdit`. -/
theorem c5_charset_length_limit (t : List Char) (ks : List Keyword)
    (freshId editingId : Nat) (htrim : trim t = t)
    (hlen : getCharLimit t < t.length) :
    getCharLimit t = (if t.all (fun c => c.toNat ≤ 0xff) then 20 else 10)
    ∧ (∀ ks2, submitAddKeyword ks t freshId ≠ AddResult.added ks2)
    ∧ (∀ ks2, saveEdit ks editingId t ≠ EditResult.saved ks2) := by
  have hpos : 0 < t.length := lt_of_le_of_lt (Nat.zero_le _) hlen
  have hne : t.isEmpty = false := by
    cases t with
    | nil => simp at hpos
    | cons c rest => rfl
  have hval : ∀ cid, validateKeyword ks t cid ≠ none := by
    intro cid
    simp only [validateKeyword, htrim, hne, Bool.false_eq_true, if_false]
    by_cases hdup :
        (ks.any fun k => lowerStr k.text == lowerStr t && some k.id != cid) = true
    · simp [hdup]
    · simp [hdup, hlen]
  refine ⟨rfl, ?_, ?_⟩
  · intro ks2 hadd
    simp only [submitAddKeyword, htrim, hne, Bool.false_eq_true, if_false] at hadd
    by_cases hcap : 100 ≤ ks.length
    · rw [if_pos hcap] at hadd
      exact absurd hadd (by simp)
    · rw [if_neg hcap] at hadd
      cases hv : validateKeyword ks t none with
      | none => exact hval none hv
      | some e =>
          rw [hv] at hadd
          exact absurd hadd (by simp)
  · intro ks2 hedit
    simp only [saveEdit, htrim, hne, Bool.false_eq_true, if_false] at hedit
    cases hv : validateKeyword ks t (some editingId) with
    | none => exact hval (some editingId) hv
    | some e =>
        rw [hv] at hedit
        exact absurd hedit (by simp)

/-- C5 witness: 21 ASCII characters exceed the 20-character limit and the
add is rejected. -/
theorem c5_witness :
    (trim tC5 = tC5 ∧ getCharLimit tC5 < tC5.length)
    ∧ ∀ ks2, submitAddKeyword [] tC5 0 ≠ AddResult.added ks2 :=
  ⟨⟨by decide, by decide⟩,
   (c5_charset_length_limit tC5 [] 0 0 (by decide) (by decide)).2.1⟩

/-- C6: when the store already holds 100 keywords, adding any candidate
text that trims to non-empty fails with the capacity error and the list is
left unchanged (`setKeywords` is only reached in the success branch). -/
theorem c6_capacity_preserves_store (ks : List Keyword) (t : List Char)
    (freshId : Nat) (hfull : ks.length = 100) (hne : trim t ≠ []) :
    submitAddKeyword ks t freshId = AddResult.capacityError
    ∧ keywordsAfterAdd ks t freshId = ks := by
  have hempty : (trim t).isEmpty = false := by
    cases htr : trim t with
    | nil => exact absurd htr hne
    | cons c rest => rfl
  have hcap : 100 ≤ ks.length := le_of_eq hfull.symm
  have h1 : submitAddKeyword ks t freshId = AddResult.capacityError := by
    simp only [submitAddKeyword, hempty, Bool.false_eq_true, if_false, hcap,
      if_true]
  refine ⟨h1, ?_⟩
  simp only [keywordsAfterAdd, h1]

/-- C6 witness: a concrete 100-entry store rejects an add with the capacity
error and is unchanged. -/
theorem c6_witness :
    (ksC6.length = 100 ∧ trim "x".toList ≠ [])
    ∧ submitAddKeyword ksC6 "x".toList 500 = AddResult.capacityError
    ∧ keywordsAfterAdd ksC6 "x".toList 500 = ksC6 :=
  ⟨⟨by decide, by decide⟩,
   (c6_capacity_preserves_store ksC6 "x".toList 500 (by decide) (by decide)).1,
   (c6_capacity_preserves_store ksC6 "x".toList 500 (by decide) (by decide)).2⟩

/-- C7: every KeywordStore operation — add, edit, remove, and the reset of
match fields — preserves the two store invariants: the list holds at most
100 records and no two records have case-insensitively equal texts (given
the data-model fact that record ids are unique). -/
theorem c7_store_invariants (ks : List Keyword) (hid : idsNodup ks)
    (hsz : sizeOk ks) (huq : textsUnique ks) :
    (∀ t freshId ks2, submitAddKeyword ks t freshId = AddResult.added ks2 →
        sizeOk ks2 ∧ textsUnique ks2)
    ∧ (∀ editingId t ks2, saveEdit ks editingId t = EditResult.saved ks2 →
        sizeOk ks2 ∧ textsUnique ks2)
    ∧ (∀ id, sizeOk (removeKeyword ks id) ∧ textsUnique (removeKeyword ks id))
    ∧ (sizeOk (resetResults ks) ∧ textsUnique (resetResults ks)) := by
  refine ⟨?_, ?_, ?_, ?_⟩
  · -- add preserves the invariants
    intro t freshId ks2 hadd
    simp only [submitAddKeyword] at hadd
    by_cases hemp : (trim t).isEmpty = true
    · rw [if_pos hemp] at hadd
      exact absurd hadd (by simp)
    · rw [if_neg hemp] at hadd
      by_cases hcap : 100 ≤ ks.length
      · rw [if_pos hcap] at hadd
        exact absurd hadd (by simp)
      · rw [if_neg hcap] at hadd
        cases hv : validateKeyword ks (trim t) none with
        | some e =>
            rw [hv] at hadd
            exact absurd hadd (by simp)
        | none =>
            rw [hv] at hadd
            simp only [AddResult.added.injEq] at hadd
            subst hadd
            have hnodup : ∀ k ∈ ks, lowerStr k.text ≠ lowerStr (trim t) := by
              intro k hk heq
              simp only [validateKeyword, trim_idem] at hv
              rw [if_neg hemp] at hv
              by_cases hany : (ks.any fun k =>
                  lowerStr k.text == lowerStr (trim t)
                    && some k.id != none) = true
              · rw [if_pos hany] at hv
                exact absurd hv (by simp)
              · apply hany
                rw [List.any_eq_true]
                exact ⟨k, hk, by simp [heq]⟩
            constructor
            · simp only [sizeOk, List.length_cons]
              omega
            · rw [textsUnique, List.pairwise_cons]
              exact ⟨fun k hk heq => hnodup k hk heq.symm, huq⟩
  · -- edit preserves the invariants
    intro editingId t ks2 hedit
    simp only [saveEdit] at hedit
    by_cases hemp : (trim t).isEmpty = true
    · rw [if_pos hemp] at hedit
      exact absurd hedit (by simp)
    · rw [if_neg hemp] at hedit
      cases hv : validateKeyword ks (trim t) (some editingId) with
      | some e =>
          rw [hv] at hedit
          exact absurd hedit (by simp)
      | none =>
          rw [hv] at hedit
          simp only [EditResult.saved.injEq] at hedit
          subst hedit
          have hval : ∀ k ∈ ks, k.id ≠ editingId →
              lowerStr k.text ≠ lowerStr (trim t) := by
            intro k hk hkid heq
            simp only [validateKeyword, trim_idem] at hv
            rw [if_neg hemp] at hv
            by_cases hany : (ks.any fun k =>
                lowerStr k.text == lowerStr (trim t)
                  && some k.id != some editingId) = true
            · rw [if_pos hany] at hv
              exact absurd hv (by simp)
            · apply hany
              rw [List.any_eq_true]
              refine ⟨k, hk, ?_⟩
              simp [heq, hkid]
          constructor
          · simp only [sizeOk, List.length_map]
            exact hsz
          · rw [textsUnique, List.pairwise_map]
            refine (huq.and hid).imp_of_mem ?_
            intro a b ha hb hab
            obtain ⟨habt, habi⟩ := hab
            by_cases haid : (a.id == editingId) = true
            · have hbid : (b.id == editingId) = false := by
                rw [Bool.eq_false_iff]
                intro hb'
                apply habi
                simp only [beq_iff_eq] at haid hb'
                rw [haid, hb']
              have hbne : b.id ≠ editingId := by simpa using hbid
              simp only [haid, hbid, if_true, Bool.false_eq_true, if_false]
              exact fun heq => hval b hb hbne heq.symm
            · have hane : a.id ≠ editingId := by simpa using haid
              by_cases hbid : (b.id == editingId) = true
              · simp only [haid, hbid, if_true, Bool.false_eq_true, if_false]
                exact fun heq => hval a ha hane heq
              · simp only [haid, hbid, Bool.false_eq_true, if_false]
                exact habt
  · -- remove preserves the invariants
    intro id
    constructor
    · exact le_trans (List.length_filter_le _ _) hsz
    · exact huq.filter _
  · -- reset preserves the invariants
    constructor
    · simp only [sizeOk, resetResults, List.length_map]
      exact hsz
    · simp only [textsUnique, resetResults, List.pairwise_map]
      exact huq.imp fun h => by simpa using h

/-- C7 witness: the invariants hold after removing a record from a concrete
valid store. -/
theorem c7_witness :
    sizeOk (removeKeyword ksC7 1) ∧ textsUnique (removeKeyword ksC7 1) :=
  (c7_store_invariants ksC7 (by decide) (by decide) (by decide)).2.2.1 1

/-- C8: the highlight renderer's segments cover the transcript exactly once
with no gaps or overlaps, in both modes.  In server-marked mode,
concatenating the segments with their tag markers re-inserted reproduces
the marked transcript exactly — i.e. the visible segment texts concatenate
to the marked transcript stripped of exactly the matched tag markers.  In
client fallback mode, concatenating the visible segment texts reproduces
the transcript exactly.  (The hypotheses exclude the degenerate empty
keyword/segment strings, which the store's validation cannot produce.) -/
theorem c8_round_trip (transcription : List Char)
    (markedTranscription : Option (List Char)) (keywords : List Keyword)
    (hkw : ∀ k ∈ keywords, k.detected = true → k.text ≠ [])
    (hfz : ∀ k ∈ keywords, ∀ seg ∈ k.fuzzySegments, seg ≠ []) :
    (∀ m, markedTranscription = some m →
        restoreConcat
          (renderTranscriptionContent transcription markedTranscription keywords)
          = m)
    ∧ (markedTranscription = none →
        textConcat
          (renderTranscriptionContent transcription markedTranscription keywords)
          = transcription) := by
  constructor
  · rintro m rfl
    exact splitMarkedF_restore m.length m
  · rintro rfl
    simp only [renderTranscriptionContent]
    split
    · simp [textConcat]
    · split
      · simp [textConcat]
      · exact clientPartsF_text _ _ _ _ _

/-- C8 witness: both modes evaluated on concrete inputs — a marked
transcript with one exact and one fuzzy span, and the spec's client-mode
example (detected "abc", fuzzy segment "abcd", transcript "abc ABCD"). -/
theorem c8_witness :
    restoreConcat (renderTranscriptionContent trC8 (some mkC8) ksC8) = mkC8
    ∧ textConcat (renderTranscriptionContent trC8 none ksC8) = trC8 :=
  ⟨(c8_round_trip trC8 (some mkC8) ksC8 (by decide) (by decide)).1 mkC8 rfl,
   (c8_round_trip trC8 none ksC8 (by decide) (by decide)).2 rfl⟩

/-- C9 counterexample: keyword 1's translated text equals keyword 2's text,
so both end up with search text "urgent"; the service's single entry for
"urgent" (absolute_pair = 1) is applied ONLY to keyword 1 (the first
record `Array.find` returns), while keyword 2 — a record with the very
same search text — keeps its exact-pass result.  The semantic-match result
for that text is therefore collapsed onto a single record by text, not
applied per-record as the claim states. -/
theorem c9_counterexample :
    ((searchKeywordsOf ksC9 tmC9).map fun k => k.text)
      = ["urgent".toList, "urgent".toList]
    ∧ resC9.analysis = [entC9]
    ∧ entC9.object = "urgent".toList
    ∧ ((handleProcessAudio traC9 ksC9 tmC9 (some resC9) none).keywords.map
        fun k => (k.id, k.detected, k.matchCount))
      = [(1, true, 1), (2, false, 0)] := by decide

/-- C9 amended: updates are tracked per-id (each record keeps its own
update slot), but an analysis entry is applied only to the FIRST search
keyword in list order whose text equals the entry's object; any other
record — including one with the very same search text — keeps its previous
update. -/
theorem c9_amended (searchKeywords : List Keyword)
    (u : Nat → Option MatchUpdate) (e : AnalysisEntry) (k₁ k₂ : Keyword)
    (hfind : searchKeywords.find? (fun sk => sk.text == e.object) = some k₁)
    (hne : k₂.id ≠ k₁.id) :
    applyAnalysis searchKeywords [e] u k₁.id = some (entryUpdate e)
    ∧ applyAnalysis searchKeywords [e] u k₂.id = u k₂.id := by
  have h1 : applyAnalysis searchKeywords [e] u = applyEntry searchKeywords u e :=
    rfl
  rw [h1]
  constructor
  · simp only [applyEntry, hfind]
    show (if (k₁.id == k₁.id) = true then some (entryUpdate e) else u k₁.id)
      = some (entryUpdate e)
    simp
  · simp only [applyEntry, hfind]
    show (if (k₂.id == k₁.id) = true then some (entryUpdate e) else u k₂.id)
      = u k₂.id
    rw [if_neg (by simp [hne])]

/-- C9 amended witness: two records sharing search text "uu"; the single
entry lands on record 1 and record 2's slot is untouched. -/
theorem c9_amended_witness :
    applyAnalysis sksC9w [entC9w] (fun _ => none) 1 = some (entryUpdate entC9w)
    ∧ applyAnalysis sksC9w [entC9w] (fun _ => none) 2 = none :=
  c9_amended sksC9w (fun _ => none) entC9w kwC9wa kwC9wb (by decide) (by decide)

/-- C10 counterexample: the service returns an entry whose object "aa"
equals the text of keyword 1 — which was exact-detected and therefore NOT
submitted (only "qq" was).  The claim says such an entry is silently
discarded, but the lookup runs over ALL search keywords, so the entry
overwrites keyword 1's update: its exact-pass result (detected, matchCount
1) becomes detected = false, matchCount = 0, fuzzyCount = 3. -/
theorem c10_counterexample :
    ((keywordsForLLM (exactPassUpdates traC10 ksC10) ksC10).map fun k => k.text)
      = ["qq".toList]
    ∧ entC10.object = "aa".toList
    ∧ exactUpdate traC10 kwC10a
      = { detected := true, matchCount := 1, fuzzyCount := 0, fuzzySegments := [] }
    ∧ ((handleProcessAudio traC10 ksC10 none (some resC10) none).keywords.map
        fun k => (k.id, k.detected, k.matchCount, k.fuzzyCount))
      = [(1, false, 0, 3), (2, false, 0, 0)] := by decide

/-- C10 amended: an analysis entry is silently discarded only when its
object equals NO search keyword's text (submitted or not): then it changes
no keyword's update and the merge proceeds as if the entry were absent. -/
theorem c10_amended (searchKeywords : List Keyword)
    (u : Nat → Option MatchUpdate) (e : AnalysisEntry) (rs : List AnalysisEntry)
    (hfind : searchKeywords.find? (fun sk => sk.text == e.object) = none) :
    applyEntry searchKeywords u e = u
    ∧ applyAnalysis searchKeywords (e :: rs) u = applyAnalysis searchKeywords rs u := by
  have h1 : applyEntry searchKeywords u e = u := by
    simp only [applyEntry, hfind]
  exact ⟨h1, by simp only [applyAnalysis, List.foldl_cons, h1]⟩

/-- C10 amended witness: an entry matching no keyword text is a no-op. -/
theorem c10_amended_witness :
    applyEntry [kwC10w] (fun _ => none) entC10w = (fun _ => none)
    ∧ applyAnalysis [kwC10w] [entC10w] (fun _ => none)
      = applyAnalysis [kwC10w] [] (fun _ => none) :=
  c10_amended [kwC10w] (fun _ => none) entC10w [] (by decide)
